import Mathlib

/-!
Shallow embedding of the `StructuredLogger` TypeScript module: log
levels, meta normalization, error serialization, redaction, record
assembly, formatting, and a model of ambient request-context
propagation, together with proofs of the documented properties.
-/

set_option maxHeartbeats 1000000

/-- JavaScript runtime values as far as the logger inspects them:
scalars, `null` / `undefined`, arrays, plain objects (association lists
of fields in insertion order) and `Error` instances (name, message,
optional stack, optional `cause`, where the cause may be any value,
including another `Error`). -/
inductive Value where
  | vStr (s : String)
  | vNum (n : Int)
  | vBool (b : Bool)
  | vNull
  | vUndefined
  | vArr (items : List Value)
  | vObj (fields : List (String × Value))
  | vError (name message : String) (stack : Option String) (cause : Option Value)

/-- Runtime test `x instanceof Error`. -/
def Value.isError : Value → Bool
  | .vError _ _ _ _ => true
  | _ => false

/-- Test for the JavaScript value `undefined`. -/
def Value.isUndefined : Value → Bool
  | .vUndefined => true
  | _ => false

/-- JavaScript nullish test (`x == null`), the test performed by the
`??` operator. -/
def Value.isNullish : Value → Bool
  | .vUndefined => true
  | .vNull => true
  | _ => false

/-- JavaScript truthiness of a value (the test performed by `if (!meta)`
and by the conditional operator). -/
def truthy : Value → Bool
  | .vUndefined => false
  | .vNull => false
  | .vBool b => b
  | .vNum n => n != 0
  | .vStr s => s != ""
  | _ => true

/-- Scalar (primitive non-nullish) values: strings, numbers, booleans. -/
def Value.isScalar : Value → Bool
  | .vStr _ => true
  | .vNum _ => true
  | .vBool _ => true
  | _ => false

/-- Property read on an object's field list (first occurrence wins,
mirroring the unique-key invariant of JavaScript objects). -/
def lookup (fields : List (String × Value)) (k : String) : Option Value :=
  (fields.find? (fun p => p.1 == k)).map (fun p => p.2)

/-- `StructuredLogger.serializeError`: converts an `Error` into a plain
mapping with keys `name`, `message`, `stack` (the stack only when
`includeStackTraces` is set, otherwise `undefined`) and `cause` (the
cause serialized recursively when it is itself an `Error`, otherwise
passed through unchanged, `undefined` when absent). -/
def serializeError (incl : Bool) : Value → List (String × Value)
  | .vError name msg stack cause =>
      [("name", Value.vStr name),
       ("message", Value.vStr msg),
       ("stack",
         if incl then
           (match stack with
            | some s => Value.vStr s
            | none => Value.vUndefined)
         else Value.vUndefined),
       ("cause",
         match cause with
         | some c => if c.isError then Value.vObj (serializeError incl c) else c
         | none => Value.vUndefined)]
  | _ => []

/-- `StructuredLogger.normalizeMeta`: falsy input gives an empty
mapping; an `Error` is serialized; an array is wrapped as a single
`items` field with each element normalized recursively; a plain object
is shallow-copied with `Error`-valued fields serialized; any remaining
scalar is wrapped as a `value` field. -/
def normalizeMeta (incl : Bool) (meta : Value) : List (String × Value) :=
  if truthy meta = false then []
  else
    match meta with
    | .vError name msg stack cause => serializeError incl (.vError name msg stack cause)
    | .vArr items =>
        [("items", Value.vArr (items.attach.map
            (fun x => Value.vObj (normalizeMeta incl x.1))))]
    | .vObj fields =>
        fields.map (fun p =>
          (p.1, if p.2.isError then Value.vObj (serializeError incl p.2) else p.2))
    | m => [("value", m)]
termination_by sizeOf meta
decreasing_by
  simp_wf
  have h := List.sizeOf_lt_of_mem x.2
  simp at h ⊢
  omega

/-- A pathological cause chain of the given length: `causeChain n` is an
`Error` whose `cause` chain contains `n` further nested `Error`s. -/
def causeChain : Nat → Value
  | 0 => .vError "E" "boom" none none
  | n + 1 => .vError "E" "boom" none (some (causeChain n))

/-- Nesting depth of serialized `cause` mappings in the output of the
error serializer: counts how many times a serialized-error shape (four
fields ending in an object-valued `cause`) is nested. -/
def causeChainLen : List (String × Value) → Nat
  | [_, _, _, ("cause", .vObj rest)] => causeChainLen rest + 1
  | _ => 0

theorem causeChain_isError (n : Nat) : (causeChain n).isError = true := by
  cases n <;> simp [causeChain, Value.isError]

theorem serializeError_causeChain (incl : Bool) (n : Nat) :
    causeChainLen (serializeError incl (causeChain n)) = n := by
  induction n with
  | zero => cases incl <;> simp [causeChain, serializeError, causeChainLen]
  | succ n ih =>
      rw [causeChain, serializeError]
      rw [show (causeChain n).isError = true from causeChain_isError n]
      simp only [if_true]
      rw [causeChainLen]
      omega

/-- C2 (counterexample): there is no maximum recursion depth at which
error serialization stops: for every candidate bound `D` the chain of
`D + 1` causes is serialized in full, so no marker is ever substituted. -/
theorem serializeError_no_depth_bound :
    ¬ ∃ D : Nat, ∀ e : Value, causeChainLen (serializeError true e) ≤ D := by
  rintro ⟨D, h⟩
  have hD := h (causeChain (D + 1))
  rw [serializeError_causeChain] at hD
  omega

/-- C2 (amended): error serialization recurses through the entire cause
chain with no maximum recursion depth and no substituted marker; it is
total on every representable (finite, acyclic) error value, and on a
cause chain of any length `n` the serialized output nests exactly `n`
cause levels. -/
theorem serializeError_full_chain (incl : Bool) (n : Nat) :
    causeChainLen (serializeError incl (causeChain n)) = n :=
  serializeError_causeChain incl n

/-- C5 (counterexample): the scalar `false` is falsy, so `normalizeMeta`
returns the empty mapping for it rather than wrapping it as a `value`
field as the claim states. -/
theorem normalizeMeta_false_not_wrapped :
    normalizeMeta true (Value.vBool false) = []
      ∧ normalizeMeta true (Value.vBool false) ≠ [("value", Value.vBool false)] := by
  constructor
  · simp [normalizeMeta, truthy]
  · simp [normalizeMeta, truthy]

/-- C5 (amended): a truthy scalar (a non-empty string, a non-zero
number, or `true`) is wrapped as `{ value: s }`; every falsy input
(`undefined`, `null`, `false`, `0`, the empty string) yields the empty
mapping. -/
theorem normalizeMeta_scalar (incl : Bool) (v : Value) :
    (v.isScalar = true → truthy v = true → normalizeMeta incl v = [("value", v)])
      ∧ (truthy v = false → normalizeMeta incl v = []) := by
  constructor
  · intro hs ht
    cases v <;> simp_all [Value.isScalar, normalizeMeta]
  · intro ht
    cases v <;> simp_all [normalizeMeta, truthy]

/-- C5 (witness): the amended statement evaluated at the truthy scalar
`"x"` and at the falsy input `undefined`. -/
theorem normalizeMeta_scalar_witness :
    normalizeMeta true (Value.vStr "x") = [("value", Value.vStr "x")]
      ∧ normalizeMeta true Value.vUndefined = [] :=
  ⟨(normalizeMeta_scalar true (Value.vStr "x")).1 (by rfl) (by rfl),
   (normalizeMeta_scalar true Value.vUndefined).2 (by rfl)⟩

/-- A redaction rule from `LoggerOptions.redactKeys`: an exact key
string or a pattern (a `RegExp`, embedded as its key-matching test). -/
inductive Rule where
  | str (s : String)
  | pattern (test : String → Bool)

/-- The per-rule key test performed inside `StructuredLogger.redact`:
exact string equality for string rules, the pattern test for patterns. -/
def ruleTest : Rule → String → Bool
  | .str s, key => key == s
  | .pattern p, key => p key

/-- Assignment `clone[key] = v` on an object whose keys are unique. -/
def setKey (o : List (String × Value)) (k : String) (v : Value) : List (String × Value) :=
  o.map (fun p => if p.1 == k then (p.1, v) else p)

/-- The inner loop of `StructuredLogger.redact`: for one key, walk all
rules and assign the sentinel on every match. -/
def applyRulesKey (k : String) : List Rule → List (String × Value) → List (String × Value)
  | [], clone => clone
  | r :: rs, clone =>
      applyRulesKey k rs
        (if ruleTest r k then setKey clone k (Value.vStr "[REDACTED]") else clone)

/-- The outer loop of `StructuredLogger.redact`: walk `Object.keys(clone)`. -/
def applyKeys (rules : List Rule) : List String → List (String × Value) → List (String × Value)
  | [], clone => clone
  | k :: ks, clone => applyKeys rules ks (applyRulesKey k rules clone)

/-- `StructuredLogger.redact`: shallow-copies the mapping, then for
every top-level key and every rule assigns the sentinel on a match. -/
def redact (rules : List Rule) (meta : List (String × Value)) : List (String × Value) :=
  let clone := meta
  applyKeys rules (clone.map Prod.fst) clone

theorem setKey_setKey (o : List (String × Value)) (k : String) (v : Value) :
    setKey (setKey o k v) k v = setKey o k v := by
  simp only [setKey, List.map_map]
  refine List.map_congr_left (fun p _ => ?_)
  by_cases h : p.1 == k <;> simp [Function.comp, h]

theorem applyRulesKey_spec (k : String) (rs : List Rule) (clone : List (String × Value)) :
    applyRulesKey k rs clone =
      if rs.any (fun r => ruleTest r k) then setKey clone k (Value.vStr "[REDACTED]") else clone := by
  induction rs generalizing clone with
  | nil => simp [applyRulesKey]
  | cons r rs ih =>
      rw [applyRulesKey]
      by_cases h : ruleTest r k
      · simp only [h, if_true, ih, setKey_setKey, List.any_cons, Bool.true_or]
        by_cases h2 : rs.any (fun r => ruleTest r k) <;> simp [h2]
      · simp only [h, if_false, ih, List.any_cons]
        simp [h]

theorem applyKeys_spec (rules : List Rule) (ks : List String) (clone : List (String × Value)) :
    applyKeys rules ks clone =
      clone.map (fun p =>
        if ks.contains p.1 && rules.any (fun r => ruleTest r p.1) then
          (p.1, Value.vStr "[REDACTED]")
        else p) := by
  induction ks generalizing clone with
  | nil =>
      rw [applyKeys]
      have h0 : ∀ p : String × Value,
          (if (([] : List String).contains p.1 && rules.any fun r => ruleTest r p.1) = true
            then (p.1, Value.vStr "[REDACTED]") else p) = p := by
        intro p
        simp [List.contains]
      simp only [h0, List.map_id']
  | cons k ks ih =>
      rw [applyKeys, applyRulesKey_spec, ih]
      by_cases hm : rules.any (fun r => ruleTest r k)
      · simp only [hm, if_true, setKey, List.map_map]
        refine List.map_congr_left (fun p _ => ?_)
        by_cases hp : p.1 = k
        · subst hp
          simp [Function.comp, hm]
        · have hpb : (p.1 == k) = false := by simp [hp]
          simp [Function.comp, hpb, List.contains_cons, hp]
      · simp only [hm, if_false]
        refine List.map_congr_left (fun p _ => ?_)
        by_cases hp : p.1 = k
        · subst hp
          simp [hm]
        · simp [List.contains_cons, hp]

theorem redact_eq_map (rules : List Rule) (meta : List (String × Value)) :
    redact rules meta =
      meta.map (fun p =>
        if rules.any (fun r => ruleTest r p.1) then (p.1, Value.vStr "[REDACTED]") else p) := by
  rw [redact, applyKeys_spec]
  refine List.map_congr_left (fun p hp => ?_)
  have hmem : p.1 ∈ meta.map Prod.fst := List.mem_map.mpr ⟨p, hp, rfl⟩
  have hc : (meta.map Prod.fst).contains p.1 = true := List.elem_iff.mpr hmem
  simp only [hc, Bool.true_and]

theorem lookup_map_pair (g : String × Value → Value)
    (l : List (String × Value)) (k : String) :
    lookup (l.map (fun p => (p.1, g p))) k = (l.find? (fun p => p.1 == k)).map g := by
  induction l with
  | nil => simp [lookup]
  | cons p l ih =>
      by_cases h : p.1 == k
      · simp [lookup, List.find?_cons, h]
      · simp only [lookup, List.map_cons, List.find?_cons, h] at ih ⊢
        simpa [lookup] using ih

theorem lookup_redact (rules : List Rule) (meta : List (String × Value)) (k : String) :
    lookup (redact rules meta) k =
      (lookup meta k).map (fun v =>
        if rules.any (fun r => ruleTest r k) then Value.vStr "[REDACTED]" else v) := by
  rw [redact_eq_map]
  have hshape : (meta.map (fun p =>
        if rules.any (fun r => ruleTest r p.1) then (p.1, Value.vStr "[REDACTED]") else p))
      = meta.map (fun p =>
        (p.1, if rules.any (fun r => ruleTest r p.1) then Value.vStr "[REDACTED]" else p.2)) := by
    refine List.map_congr_left (fun p _ => ?_)
    by_cases h : rules.any (fun r => ruleTest r p.1) <;> simp [h]
  rw [hshape, lookup_map_pair]
  rw [lookup]
  cases hf : meta.find? (fun p => p.1 == k) with
  | none => simp
  | some p =>
      have hk := List.find?_some hf
      have hpk : p.1 = k := by simpa using hk
      simp [hpk]

/-- The five log levels of `LogLevel`. -/
inductive LogLevel where
  | error
  | warn
  | info
  | http
  | debug

/-- The numeric severity table `StructuredLogger.levels`. -/
def levels : LogLevel → Nat
  | .error => 0
  | .warn => 1
  | .info => 2
  | .http => 3
  | .debug => 4

/-- The textual name of a level, as it appears in a record. -/
def levelName : LogLevel → String
  | .error => "error"
  | .warn => "warn"
  | .info => "info"
  | .http => "http"
  | .debug => "debug"

/-- The two output modes of `LoggerOptions.format`. -/
inductive Fmt where
  | json
  | text

/-- `Required<LoggerOptions>`: the engine configuration after defaults
are applied in the constructor. -/
structure LoggerOptions where
  serviceName : String
  level : LogLevel
  format : Fmt
  includeStackTraces : Bool
  redactKeys : List Rule
  filePath : String

/-- The `COLORS` table of ANSI color codes. -/
def colorCode : LogLevel → String
  | .error => "\x1b[31m"
  | .warn => "\x1b[33m"
  | .info => "\x1b[36m"
  | .debug => "\x1b[35m"
  | .http => "\x1b[32m"

/-- The `RESET` ANSI code. -/
def RESET : String := "\x1b[0m"

/-- Decimal digit character for a digit below ten. -/
def digitChar : Nat → Char
  | 0 => '0'
  | 1 => '1'
  | 2 => '2'
  | 3 => '3'
  | 4 => '4'
  | 5 => '5'
  | 6 => '6'
  | 7 => '7'
  | 8 => '8'
  | _ => '9'

/-- Decimal digits of a natural number, most significant first. -/
def natChars (n : Nat) : List Char :=
  if _h : n < 10 then [digitChar n]
  else natChars (n / 10) ++ [digitChar (n % 10)]
decreasing_by
  exact Nat.div_lt_self (by omega) (by omega)

/-- Decimal rendering of an integer. -/
def intChars (n : Int) : List Char :=
  if n < 0 then '-' :: natChars n.natAbs else natChars n.natAbs

/-- Hexadecimal digit character for a value below sixteen. -/
def hexDigitChar : Nat → Char
  | 0 => '0'
  | 1 => '1'
  | 2 => '2'
  | 3 => '3'
  | 4 => '4'
  | 5 => '5'
  | 6 => '6'
  | 7 => '7'
  | 8 => '8'
  | 9 => '9'
  | 10 => 'a'
  | 11 => 'b'
  | 12 => 'c'
  | 13 => 'd'
  | 14 => 'e'
  | _ => 'f'

/-- Structured-data escaping of one character inside a quoted string:
quote, backslash and control characters are escaped, everything else is
passed through. -/
def escapeChar (c : Char) : List Char :=
  if c = '"' then ['\\', '"']
  else if c = '\\' then ['\\', '\\']
  else if c = '\n' then ['\\', 'n']
  else if c = '\r' then ['\\', 'r']
  else if c = '\t' then ['\\', 't']
  else if c.toNat < 32 then
    ['\\', 'u', '0', '0', hexDigitChar (c.toNat / 16), hexDigitChar (c.toNat % 16)]
  else [c]

/-- Escaping of a whole string body. -/
def escapeString (s : List Char) : List Char :=
  (s.map escapeChar).flatten

/-- Comma-joined concatenation of rendered members. -/
def joinComma : List (List Char) → List Char
  | [] => []
  | [x] => x
  | x :: y :: ys => x ++ ',' :: joinComma (y :: ys)

mutual

/-- Modelled from the spec: the external `safe-stable-stringify`
dependency (not part of this repository). Per the spec's Formatter
contract it produces a single-line, valid structured-data text that does
not throw on the record's contents; a stable key order is not required.
Mapping fields with `undefined` values are omitted, `undefined` array
elements render as `null`, and `Error` instances (which never survive
normalization) render as empty mappings. -/
def strVal : Value → List Char
  | .vStr s => '"' :: (escapeString s.toList ++ ['"'])
  | .vNum n => intChars n
  | .vBool true => ['t', 'r', 'u', 'e']
  | .vBool false => ['f', 'a', 'l', 's', 'e']
  | .vNull => ['n', 'u', 'l', 'l']
  | .vUndefined => ['n', 'u', 'l', 'l']
  | .vError _ _ _ _ => ['{', '}']
  | .vArr items =>
      '[' :: (joinComma (items.attach.map (fun x => strVal x.1)) ++ [']'])
  | .vObj fields =>
      '{' :: (joinComma ((fields.filter (fun p => !p.2.isUndefined)).attach.map
          (fun x => strMember x.1)) ++ ['}'])
termination_by v => sizeOf v
decreasing_by
  · have h := List.sizeOf_lt_of_mem x.2
    simp at h ⊢
    omega
  · have h := List.sizeOf_lt_of_mem (List.mem_of_mem_filter x.2)
    simp at h ⊢
    omega

/-- The serialized text of one mapping member. -/
def strMember (p : String × Value) : List Char :=
  '"' :: (escapeString p.1.toList ++ ['"', ':'] ++ strVal p.2)
termination_by sizeOf p
decreasing_by
  obtain ⟨a, b⟩ := p
  simp

end

/-- String form of the structured-data serializer. -/
def jsonStringify (v : Value) : String :=
  String.mk (strVal v)

/-- Replacement of the first occurrence of a character, as performed by
`timestamp.replace("T", " ")` (a string pattern replaces only the first
occurrence in JavaScript). -/
def replaceFirstChar (c r : Char) : List Char → List Char
  | [] => []
  | x :: xs => if x = c then r :: xs else x :: replaceFirstChar c r xs

/-- `padEnd(n)` with spaces. -/
def padEnd (n : Nat) (s : String) : String :=
  s ++ String.mk (List.replicate (n - s.length) ' ')

/-- JavaScript string interpolation of a value (template literal). Used
only for the bracketed request id in text mode. -/
def jsDisplay : Value → String
  | .vStr s => s
  | .vNum n => String.mk (intChars n)
  | .vBool true => "true"
  | .vBool false => "false"
  | .vNull => "null"
  | .vUndefined => "undefined"
  | .vObj _ => "[object Object]"
  | .vError name msg _ _ => name ++ ": " ++ msg
  | .vArr items => String.intercalate "," (items.attach.map (fun x => jsDisplay x.1))
termination_by v => sizeOf v
decreasing_by
  have h := List.sizeOf_lt_of_mem x.2
  simp at h ⊢
  omega

/-- The `LogEntry` record assembled by `StructuredLogger.write`. -/
structure LogEntry where
  timestamp : String
  level : LogLevel
  message : String
  service : String
  environment : String
  meta : List (String × Value)
  requestId : Option Value

/-- The fields of a `LogEntry` in insertion order, as handed to the
structured-data serializer; an absent request id is the `undefined`
property of the entry object literal. -/
def entryFields (e : LogEntry) : List (String × Value) :=
  [("timestamp", Value.vStr e.timestamp),
   ("level", Value.vStr (levelName e.level)),
   ("message", Value.vStr e.message),
   ("service", Value.vStr e.service),
   ("environment", Value.vStr e.environment),
   ("meta", Value.vObj e.meta),
   ("requestId", e.requestId.getD Value.vUndefined)]

namespace StructuredLogger

/-- The explicit `requestId` read from the raw per-call data:
`(meta as HTTPLogMeta).requestId`, with the nullish test of `??`. -/
def metaRequestId : Value → Option Value
  | .vObj fields =>
      (match lookup fields "requestId" with
       | some v => if v.isNullish then none else some v
       | none => none)
  | _ => none

/-- `StructuredLogger.format`: renders a finished entry, either as the
structured-data serialization of the whole entry (json mode) or as the
colorized human-readable line (text mode). -/
def format (o : LoggerOptions) (e : LogEntry) : String :=
  match o.format with
  | .json => jsonStringify (Value.vObj (entryFields e))
  | .text =>
      let ts := String.mk ((replaceFirstChar 'T' ' ' e.timestamp.toList).take 19)
      let color := colorCode e.level
      let lvl := padEnd 5 (String.mk ((levelName e.level).toList.map Char.toUpper))
      let rid := match e.requestId with
        | some v => if truthy v then "[" ++ jsDisplay v ++ "]" else ""
        | none => ""
      let metaStr :=
        if e.meta.length ≠ 0 then " " ++ jsonStringify (Value.vObj e.meta) else ""
      ts ++ " " ++ color ++ lvl ++ RESET ++ " " ++ rid ++ " " ++ e.message ++ metaStr

/-- The entry assembled by `StructuredLogger.write` once the level
check has passed: normalization, redaction, and correlation-id
resolution (`(meta as HTTPLogMeta).requestId ?? this.getRequestId()`),
with the ambient context value and the current time passed explicitly. -/
def mkEntry (o : LoggerOptions) (env now : String) (ctx : Option String)
    (lvl : LogLevel) (message : String) (meta : Value) : LogEntry :=
  { timestamp := now
    level := lvl
    message := message
    service := o.serviceName
    environment := env
    meta := redact o.redactKeys (normalizeMeta o.includeStackTraces meta)
    requestId := (metaRequestId meta).orElse (fun _ => ctx.map Value.vStr) }

/-- `StructuredLogger.write`: drops the call when the level is less
severe than the configured minimum, otherwise emits exactly one line
(the formatted entry plus a newline) to the destination stream. The
returned list is the sequence of writes performed. -/
def write (o : LoggerOptions) (env now : String) (ctx : Option String)
    (lvl : LogLevel) (message : String) (meta : Value) : List String :=
  if levels o.level < levels lvl then []
  else [format o (mkEntry o env now ctx lvl message meta) ++ "\n"]

/-- Public method `error`. -/
def error (o : LoggerOptions) (env now : String) (ctx : Option String)
    (msg : String) (meta : Value := .vObj []) : List String :=
  write o env now ctx .error msg meta

/-- Public method `warn`. -/
def warn (o : LoggerOptions) (env now : String) (ctx : Option String)
    (msg : String) (meta : Value := .vObj []) : List String :=
  write o env now ctx .warn msg meta

/-- Public method `info`. -/
def info (o : LoggerOptions) (env now : String) (ctx : Option String)
    (msg : String) (meta : Value := .vObj []) : List String :=
  write o env now ctx .info msg meta

/-- Public method `debug`. -/
def debug (o : LoggerOptions) (env now : String) (ctx : Option String)
    (msg : String) (meta : Value := .vObj []) : List String :=
  write o env now ctx .debug msg meta

/-- Public method `http` (its meta is required, not defaulted). -/
def http (o : LoggerOptions) (env now : String) (ctx : Option String)
    (msg : String) (meta : Value) : List String :=
  write o env now ctx .http msg meta

end StructuredLogger

/-- The spread merge of two object literals, `{...fixedMeta, ...meta}`:
keys of the first operand in order with values overridden by the second
operand where present, then the second operand's remaining keys. -/
def spreadMerge (a b : List (String × Value)) : List (String × Value) :=
  a.map (fun p =>
      match b.find? (fun q => q.1 == p.1) with
      | some q => (p.1, q.2)
      | none => p)
    ++ b.filter (fun q => a.all (fun p => p.1 != q.1))

/-- The levels a child logger exposes (`StructuredLogger.child` returns
methods for error, warn, info and debug only). -/
inductive ChildLevel where
  | error
  | warn
  | info
  | debug

/-- The engine level a child method delegates to. -/
def ChildLevel.toLogLevel : ChildLevel → LogLevel
  | .error => .error
  | .warn => .warn
  | .info => .info
  | .debug => .debug

namespace StructuredLogger

/-- `StructuredLogger.child`: each method merges the bound fixed meta
under the per-call meta (per-call wins) and delegates to the parent
engine's corresponding public method. -/
def child (o : LoggerOptions) (env now : String) (ctx : Option String)
    (fixedMeta : List (String × Value)) (cl : ChildLevel) (msg : String)
    (meta : List (String × Value) := []) : List String :=
  match cl with
  | .error => error o env now ctx msg (.vObj (spreadMerge fixedMeta meta))
  | .warn => warn o env now ctx msg (.vObj (spreadMerge fixedMeta meta))
  | .info => info o env now ctx msg (.vObj (spreadMerge fixedMeta meta))
  | .debug => debug o env now ctx msg (.vObj (spreadMerge fixedMeta meta))

end StructuredLogger

/-- C1: for every configured minimum level and every call, a write of
exactly one line (the rendered record plus a newline) happens when
`severity(level) <= severity(configured minimum)` under the ordering
error(0) < warn(1) < info(2) < http(3) < debug(4), and no write happens
otherwise. -/
theorem write_level_filtering (o : LoggerOptions) (env now : String)
    (ctx : Option String) (lvl : LogLevel) (msg : String) (meta : Value) :
    (levels .error = 0 ∧ levels .warn = 1 ∧ levels .info = 2
        ∧ levels .http = 3 ∧ levels .debug = 4)
    ∧ (levels lvl ≤ levels o.level →
        StructuredLogger.write o env now ctx lvl msg meta
          = [StructuredLogger.format o
              (StructuredLogger.mkEntry o env now ctx lvl msg meta) ++ "\n"])
    ∧ (levels o.level < levels lvl →
        StructuredLogger.write o env now ctx lvl msg meta = []) := by
  refine ⟨⟨rfl, rfl, rfl, rfl, rfl⟩, fun h => ?_, fun h => ?_⟩
  · rw [StructuredLogger.write, if_neg (by omega)]
  · rw [StructuredLogger.write, if_pos h]

/-- C1 (witness): with minimum level `info`, an `error` call emits its
one formatted line and a `debug` call emits nothing. -/
theorem write_level_filtering_witness :
    StructuredLogger.write ⟨"app", .info, .json, true, [], ""⟩ "development" "t" none
        .error "m" (.vObj [])
      = [StructuredLogger.format ⟨"app", .info, .json, true, [], ""⟩
          (StructuredLogger.mkEntry ⟨"app", .info, .json, true, [], ""⟩ "development" "t" none
            .error "m" (.vObj [])) ++ "\n"]
    ∧ StructuredLogger.write ⟨"app", .info, .json, true, [], ""⟩ "development" "t" none
        .debug "m" (.vObj []) = [] :=
  ⟨(write_level_filtering ⟨"app", .info, .json, true, [], ""⟩ "development" "t" none
      .error "m" (.vObj [])).2.1 (by decide),
   (write_level_filtering ⟨"app", .info, .json, true, [], ""⟩ "development" "t" none
      .debug "m" (.vObj [])).2.2 (by decide)⟩

/-- C3: in every emitted record the meta value at a key matched by at
least one redaction rule is exactly the sentinel, regardless of the
original value and of how many rules match, and keys matched by no rule
keep their normalized values. -/
theorem redact_sentinel (o : LoggerOptions) (env now : String) (ctx : Option String)
    (lvl : LogLevel) (msg : String) (meta : Value) (k : String) :
    lookup (StructuredLogger.mkEntry o env now ctx lvl msg meta).meta k
      = (lookup (normalizeMeta o.includeStackTraces meta) k).map
          (fun v =>
            if o.redactKeys.any (fun r => ruleTest r k) then Value.vStr "[REDACTED]"
            else v) :=
  lookup_redact o.redactKeys (normalizeMeta o.includeStackTraces meta) k

/-- C4 (counterexample): a `correlationId` field in the supplied data is
not consulted: with data `{correlationId: "abc"}` and ambient context
`"ctx"`, the emitted record's correlation field is `"ctx"`, not the
`"abc"` the claim requires. -/
theorem correlationId_not_consulted :
    (StructuredLogger.mkEntry ⟨"app", .info, .json, true, [], ""⟩ "development" "t"
        (some "ctx") .info "m" (.vObj [("correlationId", Value.vStr "abc")])).requestId
      = some (Value.vStr "ctx")
    ∧ some (Value.vStr "ctx") ≠ some (Value.vStr "abc") := by
  refine ⟨rfl, ?_⟩
  simp

/-- C4 (amended): only an explicit non-nullish `requestId` field in the
supplied data takes precedence over the ambient context value
(`correlationId` is not consulted); if the data has no such field the
ambient value is used; if neither is present the record's correlation
field is `undefined` (omitted from the rendered record). -/
theorem requestId_resolution (o : LoggerOptions) (env now : String) (ctx : Option String)
    (lvl : LogLevel) (msg : String) (fields : List (String × Value)) :
    (∀ v, lookup fields "requestId" = some v → v.isNullish = false →
        (StructuredLogger.mkEntry o env now ctx lvl msg (.vObj fields)).requestId = some v)
    ∧ (lookup fields "requestId" = none →
        (StructuredLogger.mkEntry o env now ctx lvl msg (.vObj fields)).requestId
          = ctx.map Value.vStr)
    ∧ (∀ v, lookup fields "requestId" = some v → v.isNullish = true →
        (StructuredLogger.mkEntry o env now ctx lvl msg (.vObj fields)).requestId
          = ctx.map Value.vStr)
    ∧ (lookup fields "requestId" = none → ctx = none →
        (StructuredLogger.mkEntry o env now ctx lvl msg (.vObj fields)).requestId
          = none) := by
  refine ⟨fun v hv hnn => ?_, fun hn => ?_, fun v hv hnn => ?_, fun hn hc => ?_⟩
  · simp [StructuredLogger.mkEntry, StructuredLogger.metaRequestId, hv, hnn, Option.orElse]
  · simp [StructuredLogger.mkEntry, StructuredLogger.metaRequestId, hn, Option.orElse]
  · simp [StructuredLogger.mkEntry, StructuredLogger.metaRequestId, hv, hnn, Option.orElse]
  · simp [StructuredLogger.mkEntry, StructuredLogger.metaRequestId, hn, hc, Option.orElse]

/-- C4 (witness): the spec's scenario — an `http` call whose data
carries `requestId: "abc"` with no ambient context bound resolves the
record's correlation field to `"abc"`. -/
theorem requestId_resolution_witness :
    (StructuredLogger.mkEntry ⟨"app", .info, .json, true, [], ""⟩ "development" "t" none
        .http "done"
        (.vObj [("method", Value.vStr "GET"), ("url", Value.vStr "/x"),
                ("statusCode", Value.vNum 200), ("duration", Value.vNum 12),
                ("requestId", Value.vStr "abc")])).requestId
      = some (Value.vStr "abc") :=
  (requestId_resolution ⟨"app", .info, .json, true, [], ""⟩ "development" "t" none
      .http "done"
      [("method", Value.vStr "GET"), ("url", Value.vStr "/x"),
       ("statusCode", Value.vNum 200), ("duration", Value.vNum 12),
       ("requestId", Value.vStr "abc")]).1
    (Value.vStr "abc") (by rfl) (by rfl)

theorem lookup_append (l1 l2 : List (String × Value)) (k : String) :
    lookup (l1 ++ l2) k = (lookup l1 k).orElse (fun _ => lookup l2 k) := by
  induction l1 with
  | nil => simp [lookup, Option.orElse]
  | cons p l ih =>
      by_cases h : p.1 == k
      · simp [lookup, List.find?_cons, h, Option.orElse]
      · simp only [lookup, List.cons_append, List.find?_cons, h] at ih ⊢
        simpa [lookup] using ih

theorem find?_filter_imp {α : Type} (pr q : α → Bool) (l : List α)
    (h : ∀ x, pr x = true → q x = true) :
    List.find? pr (l.filter q) = List.find? pr l := by
  induction l with
  | nil => simp
  | cons x l ih =>
      by_cases hx : pr x
      · have hq : q x = true := h x hx
        simp [List.filter_cons, hq, List.find?_cons, hx, ih]
      · by_cases hq : q x <;>
          simp [List.filter_cons, hq, List.find?_cons, hx, ih]

theorem lookup_spreadMerge (a b : List (String × Value)) (k : String) :
    lookup (spreadMerge a b) k = (lookup b k).orElse (fun _ => lookup a k) := by
  rw [spreadMerge, lookup_append]
  have hmap : (a.map (fun p =>
      match b.find? (fun q => q.1 == p.1) with
      | some q => (p.1, q.2)
      | none => p))
      = a.map (fun p => (p.1,
          match b.find? (fun q => q.1 == p.1) with
          | some q => q.2
          | none => p.2)) := by
    refine List.map_congr_left (fun p _ => ?_)
    cases b.find? (fun q => q.1 == p.1) <;> simp
  rw [hmap, lookup_map_pair]
  cases hfa : a.find? (fun p => p.1 == k) with
  | some p =>
      have hpk : p.1 = k := by simpa using List.find?_some hfa
      simp only [Option.map_some', Option.orElse]
      rw [hpk]
      rw [show lookup a k = some p.2 from by rw [lookup, hfa]; rfl]
      rw [lookup]
      cases hfb : b.find? (fun q => q.1 == k) <;> simp [Option.orElse]
  | none =>
      have hnotin : ∀ x ∈ a, ¬((fun p => p.1 == k) x = true) :=
        List.find?_eq_none.mp hfa
      simp only [Option.map_none', Option.orElse]
      rw [lookup, find?_filter_imp]
      · rw [show lookup a k = none from by rw [lookup, hfa]; rfl]
        rw [lookup]
        cases hfb : b.find? (fun q => q.1 == k) <;> simp [Option.orElse]
      · intro x hx
        have hxk : x.1 = k := by simpa using hx
        refine List.all_eq_true.mpr (fun p hp => ?_)
        have := hnotin p hp
        simp only [bne_iff_ne, ne_eq]
        intro hcontra
        exact this (by simp [hcontra, hxk])

/-- C7: each level method of a bound logger delegates to the parent
engine's corresponding method with the spread merge of the fixed fields
under the per-call fields; on key collisions the per-call value wins,
and the spec's two concrete scenarios hold. -/
theorem child_delegation (o : LoggerOptions) (env now : String) (ctx : Option String)
    (fixedMeta percall : List (String × Value)) (cl : ChildLevel) (msg : String)
    (k : String) :
    StructuredLogger.child o env now ctx fixedMeta cl msg percall
      = StructuredLogger.write o env now ctx cl.toLogLevel msg
          (.vObj (spreadMerge fixedMeta percall))
    ∧ lookup (spreadMerge fixedMeta percall) k
        = (lookup percall k).orElse (fun _ => lookup fixedMeta k)
    ∧ spreadMerge [("component", Value.vStr "db")] [("x", Value.vNum 1)]
        = [("component", Value.vStr "db"), ("x", Value.vNum 1)]
    ∧ spreadMerge [("component", Value.vStr "db")] [("component", Value.vStr "override")]
        = [("component", Value.vStr "override")] := by
  refine ⟨?_, lookup_spreadMerge fixedMeta percall k, ?_, ?_⟩
  · cases cl <;> rfl
  · rfl
  · rfl

/-- C10: the record's top-level request id is read from the raw
caller-supplied meta before normalization and redaction: even when a
redaction rule matches the key `requestId` (so the record's meta at that
key becomes the sentinel), the top-level field still carries the
original, unredacted value. -/
theorem rawRequestId_precedes_redaction (o : LoggerOptions) (env now : String)
    (ctx : Option String) (lvl : LogLevel) (msg : String)
    (fields : List (String × Value)) (v : Value)
    (hrule : Rule.str "requestId" ∈ o.redactKeys)
    (hv : lookup fields "requestId" = some v)
    (hnn : v.isNullish = false) :
    (StructuredLogger.mkEntry o env now ctx lvl msg (.vObj fields)).requestId = some v
    ∧ lookup (StructuredLogger.mkEntry o env now ctx lvl msg (.vObj fields)).meta "requestId"
        = some (Value.vStr "[REDACTED]") := by
  constructor
  · simp [StructuredLogger.mkEntry, StructuredLogger.metaRequestId, hv, hnn, Option.orElse]
  · have hmatch : o.redactKeys.any (fun r => ruleTest r "requestId") = true := by
      refine List.any_eq_true.mpr ⟨Rule.str "requestId", hrule, ?_⟩
      simp [ruleTest]
    have hmeta : (StructuredLogger.mkEntry o env now ctx lvl msg (.vObj fields)).meta
        = redact o.redactKeys (normalizeMeta o.includeStackTraces (.vObj fields)) := rfl
    rw [hmeta, lookup_redact, hmatch]
    have hnormeq : normalizeMeta o.includeStackTraces (.vObj fields)
        = fields.map (fun p => (p.1,
            if p.2.isError then Value.vObj (serializeError o.includeStackTraces p.2)
            else p.2)) := by
      simp [normalizeMeta, truthy]
    obtain ⟨p, hp, hpv⟩ : ∃ p, fields.find? (fun p => p.1 == "requestId") = some p ∧ p.2 = v := by
      rw [lookup] at hv
      obtain ⟨p, hp1, hp2⟩ := Option.map_eq_some'.mp hv
      exact ⟨p, hp1, hp2⟩
    rw [hnormeq, lookup_map_pair, hp]
    simp

/-- C10 (witness): with rule `"requestId"` and data
`{requestId: "abc"}`, the record keeps `requestId: "abc"` at top level
while its meta holds the sentinel. -/
theorem rawRequestId_precedes_redaction_witness :
    (StructuredLogger.mkEntry ⟨"app", .info, .json, true, [Rule.str "requestId"], ""⟩
        "development" "t" none .info "m"
        (.vObj [("requestId", Value.vStr "abc")])).requestId
      = some (Value.vStr "abc")
    ∧ lookup (StructuredLogger.mkEntry ⟨"app", .info, .json, true, [Rule.str "requestId"], ""⟩
        "development" "t" none .info "m"
        (.vObj [("requestId", Value.vStr "abc")])).meta "requestId"
      = some (Value.vStr "[REDACTED]") :=
  rawRequestId_precedes_redaction ⟨"app", .info, .json, true, [Rule.str "requestId"], ""⟩
    "development" "t" none .info "m" [("requestId", Value.vStr "abc")] (Value.vStr "abc")
    (by simp) (by rfl) (by rfl)

/-- A heap of JavaScript objects, addresses to field lists. Mutation
claims about code that assigns through references are stated against
this explicit store. -/
def Heap : Type := Nat → List (String × Value)

/-- One assignment `objectAt(a)[k] = v` performed through a reference. -/
def setFieldH (st : Heap) (a : Nat) (k : String) (v : Value) : Heap :=
  fun b => if b = a then setKey (st a) k v else st b

/-- Heap-level inner loop of `StructuredLogger.redact` (all assignments
go to the clone's address `a`). -/
def applyRulesKeyH (a : Nat) (k : String) : List Rule → Heap → Heap
  | [], st => st
  | r :: rs, st =>
      applyRulesKeyH a k rs
        (if ruleTest r k then setFieldH st a k (Value.vStr "[REDACTED]") else st)

/-- Heap-level outer loop of `StructuredLogger.redact`. -/
def applyKeysH (rules : List Rule) (a : Nat) : List String → Heap → Heap
  | [], st => st
  | k :: ks, st => applyKeysH rules a ks (applyRulesKeyH a k rules st)

/-- Heap-level `StructuredLogger.redact`: `const clone = {...meta}`
allocates a fresh object at the next free address, the loops then
assign only through the clone's reference. Returns the final heap, the
next free address, and the clone's address. -/
def redactH (rules : List Rule) (st : Heap) (next aMeta : Nat) :
    Heap × Nat × Nat :=
  let clone := st aMeta
  let st1 : Heap := fun b => if b = next then clone else st b
  let keys := (st1 next).map Prod.fst
  (applyKeysH rules next keys st1, next + 1, next)

theorem applyRulesKeyH_frame (a : Nat) (k : String) (rs : List Rule) (st : Heap)
    (b : Nat) (hb : b ≠ a) : applyRulesKeyH a k rs st b = st b := by
  induction rs generalizing st with
  | nil => rfl
  | cons r rs ih =>
      rw [applyRulesKeyH, ih]
      by_cases h : ruleTest r k <;> simp [h, setFieldH, hb]

theorem applyRulesKeyH_at (a : Nat) (k : String) (rs : List Rule) (st : Heap) :
    applyRulesKeyH a k rs st a = applyRulesKey k rs (st a) := by
  induction rs generalizing st with
  | nil => rfl
  | cons r rs ih =>
      rw [applyRulesKeyH, applyRulesKey, ih]
      by_cases h : ruleTest r k <;> simp [h, setFieldH]

theorem applyKeysH_frame (rules : List Rule) (a : Nat) (ks : List String) (st : Heap)
    (b : Nat) (hb : b ≠ a) : applyKeysH rules a ks st b = st b := by
  induction ks generalizing st with
  | nil => rfl
  | cons k ks ih => rw [applyKeysH, ih, applyRulesKeyH_frame _ _ _ _ _ hb]

theorem applyKeysH_at (rules : List Rule) (a : Nat) (ks : List String) (st : Heap) :
    applyKeysH rules a ks st a = applyKeys rules ks (st a) := by
  induction ks generalizing st with
  | nil => rfl
  | cons k ks ih => rw [applyKeysH, applyKeys, ih, applyRulesKeyH_at]

/-- C8: redaction never mutates its input object: after the heap-level
run of `StructuredLogger.redact` the input mapping's object is
unchanged, and the returned clone holds exactly the value of the pure
`redact` function (the formatter and the rest of the pipeline perform no
assignment at all and are embedded as pure functions). -/
theorem redact_no_mutation (rules : List Rule) (st : Heap) (next aMeta : Nat)
    (h : aMeta < next) :
    (redactH rules st next aMeta).1 aMeta = st aMeta
    ∧ (redactH rules st next aMeta).1 (redactH rules st next aMeta).2.2
        = redact rules (st aMeta) := by
  have hne : aMeta ≠ next := by omega
  constructor
  · rw [redactH]
    simp only
    rw [applyKeysH_frame _ _ _ _ _ hne]
    simp [hne]
  · rw [redactH]
    simp only
    rw [applyKeysH_at]
    simp only [if_pos rfl]
    rfl

/-- C8 (witness): a concrete heap with one object holding a secret: the
input object survives redaction unchanged while the clone is redacted. -/
theorem redact_no_mutation_witness :
    (redactH [Rule.str "password"]
        (fun b => if b = 0 then [("password", Value.vStr "secret")] else []) 1 0).1 0
      = (fun b => if b = 0 then [("password", Value.vStr "secret")] else []
          : Heap) 0
    ∧ (redactH [Rule.str "password"]
        (fun b => if b = 0 then [("password", Value.vStr "secret")] else []) 1 0).1
        (redactH [Rule.str "password"]
          (fun b => if b = 0 then [("password", Value.vStr "secret")] else []) 1 0).2.2
      = redact [Rule.str "password"]
          ((fun b => if b = 0 then [("password", Value.vStr "secret")] else []
            : Heap) 0) :=
  redact_no_mutation [Rule.str "password"]
    (fun b => if b = 0 then [("password", Value.vStr "secret")] else []) 1 0 (by decide)

/-- Modelled from the spec: the Context Store (the source delegates to
the platform's `AsyncLocalStorage`, which is not part of this
repository). A unit of work bound by `runWithContext` carries its own
saved context value; the store restores that saved value for every step
the scheduler runs on the unit's behalf. A unit is its bound context
value together with its remaining log actions. -/
structure TaskUnit where
  ctx : Option String
  logs : List String

namespace StructuredLogger

/-- Modelled from the spec: `runWithContext(requestId, fn)` binds the
given correlation id to a unit of work; every read of the current id
performed during the unit's execution observes that binding. -/
def runWithContext (requestId : Option String) (work : List String) : TaskUnit :=
  { ctx := requestId, logs := work }

end StructuredLogger

/-- Cooperative interleaved execution of several bound units of work: a
schedule picks which unit performs its next log action at each step;
each emitted record reads the current correlation id, which the store
restores to the executing unit's saved context. -/
def runSched : List Nat → List TaskUnit → List (Option String × String)
  | [], _ => []
  | i :: sch, tasks =>
      match tasks[i]? with
      | none => runSched sch tasks
      | some t =>
          match t.logs with
          | [] => runSched sch tasks
          | l :: rest => (t.ctx, l) :: runSched sch (tasks.set i { t with logs := rest })

/-- Every unit of the running pool descends from some originally bound
unit: same saved context and a subset of its log actions. -/
def Covers (tasks tasks0 : List TaskUnit) : Prop :=
  ∀ t ∈ tasks, ∃ t0 ∈ tasks0, t.ctx = t0.ctx ∧ t.logs ⊆ t0.logs

theorem runSched_provenance (sch : List Nat) (tasks tasks0 : List TaskUnit)
    (hcov : Covers tasks tasks0) (c : Option String) (m : String)
    (hmem : (c, m) ∈ runSched sch tasks) :
    ∃ t0 ∈ tasks0, c = t0.ctx ∧ m ∈ t0.logs := by
  induction sch generalizing tasks with
  | nil => simp [runSched] at hmem
  | cons i sch ih =>
      rw [runSched] at hmem
      cases hget : tasks[i]? with
      | none =>
          rw [hget] at hmem
          exact ih tasks hcov hmem
      | some t =>
          rw [hget] at hmem
          obtain ⟨tc, tl⟩ := t
          cases tl with
          | nil =>
              exact ih tasks hcov hmem
          | cons l rest =>
              have hmem2 : (c, m) ∈ (tc, l) :: runSched sch
                  (tasks.set i { ctx := tc, logs := rest }) := hmem
              rcases List.mem_cons.mp hmem2 with hhead | htail
              · obtain ⟨t0, ht0, hctx, hsub⟩ :=
                  hcov ⟨tc, l :: rest⟩ (List.getElem?_mem hget)
                refine ⟨t0, ht0, ?_, ?_⟩
                · rw [show c = tc from congrArg Prod.fst hhead]
                  exact hctx
                · refine hsub ?_
                  rw [show m = l from congrArg Prod.snd hhead]
                  exact List.mem_cons_self l rest
              · refine ih (tasks.set i { ctx := tc, logs := rest }) ?_ htail
                intro t' ht'
                rcases List.mem_or_eq_of_mem_set ht' with hin | heq
                · exact hcov t' hin
                · obtain ⟨t0, ht0, hctx, hsub⟩ :=
                    hcov ⟨tc, l :: rest⟩ (List.getElem?_mem hget)
                  refine ⟨t0, ht0, ?_, ?_⟩
                  · rw [heq]
                    exact hctx
                  · rw [heq]
                    intro x hx
                    exact hsub (List.mem_cons_of_mem l hx)

/-- C9: context isolation under arbitrary interleaving. Two units of
work bound via `runWithContext` to ids A and B with disjoint log
actions: for any schedule interleaving them, every record emitted from
unit A's actions carries A and every record from unit B's carries B;
there is no cross-contamination. -/
theorem context_isolation (A B : String) (msgsA msgsB : List String)
    (sch : List Nat) (hdisj : ∀ m ∈ msgsA, m ∉ msgsB)
    (c : Option String) (m : String)
    (hmem : (c, m) ∈ runSched sch
        [StructuredLogger.runWithContext (some A) msgsA,
         StructuredLogger.runWithContext (some B) msgsB]) :
    (m ∈ msgsA → c = some A) ∧ (m ∈ msgsB → c = some B) := by
  obtain ⟨t0, ht0, hctx, hlog⟩ := runSched_provenance sch _ _
    (fun t ht => ⟨t, ht, rfl, fun x hx => hx⟩) c m hmem
  rcases List.mem_cons.mp ht0 with h1 | h2
  · constructor
    · intro _
      rw [hctx, h1]
      rfl
    · intro hmB
      have hmA : m ∈ msgsA := by
        rw [h1] at hlog
        exact hlog
      exact absurd hmB (hdisj m hmA)
  · have h2' : t0 = StructuredLogger.runWithContext (some B) msgsB := by
      simpa using h2
    constructor
    · intro hmA
      have hmB : m ∈ msgsB := by
        rw [h2'] at hlog
        exact hlog
      exact absurd hmB (hdisj m hmA)
    · intro _
      rw [hctx, h2']
      rfl

/-- C9 (witness): units bound to `"A"` and `"B"` with one action each,
interleaved by a concrete schedule; the record emitted by unit A carries
`"A"`. -/
theorem context_isolation_witness :
    ("a1" ∈ (["a1"] : List String) → (some "A" : Option String) = some "A")
    ∧ ("a1" ∈ (["b1"] : List String) → (some "A" : Option String) = some "B") :=
  context_isolation "A" "B" ["a1"] ["b1"] [0, 1] (by decide) (some "A") "a1" (by decide)

/-- Decimal digit test. -/
def isDigitC (c : Char) : Bool := 48 ≤ c.toNat && c.toNat ≤ 57

/-- Longest digit run at the head of the input, and the remainder. -/
def spanDigits : List Char → List Char × List Char
  | [] => ([], [])
  | c :: r =>
      if isDigitC c then (c :: (spanDigits r).1, (spanDigits r).2)
      else ([], c :: r)

/-- Numeric value of a digit run. -/
def digitsVal (ds : List Char) : Nat :=
  ds.foldl (fun a c => a * 10 + (c.toNat - 48)) 0

/-- Hexadecimal digit value. -/
def hexVal (c : Char) : Option Nat :=
  if 48 ≤ c.toNat ∧ c.toNat ≤ 57 then some (c.toNat - 48)
  else if 97 ≤ c.toNat ∧ c.toNat ≤ 102 then some (c.toNat - 87)
  else none

/-- Body of a quoted string: consumes characters up to the closing
quote, decoding escapes. -/
def parseStr : List Char → Option (List Char × List Char)
  | [] => none
  | '"' :: r => some ([], r)
  | ['\\'] => none
  | '\\' :: e :: r =>
      if e = 'n' then (parseStr r).map (fun p => ('\n' :: p.1, p.2))
      else if e = 'r' then (parseStr r).map (fun p => ('\r' :: p.1, p.2))
      else if e = 't' then (parseStr r).map (fun p => ('\t' :: p.1, p.2))
      else if e = '"' then (parseStr r).map (fun p => ('"' :: p.1, p.2))
      else if e = '\\' then (parseStr r).map (fun p => ('\\' :: p.1, p.2))
      else if e = 'u' then
        match r with
        | h1 :: h2 :: h3 :: h4 :: r2 =>
            (match hexVal h1, hexVal h2, hexVal h3, hexVal h4 with
             | some a, some b, some c, some d =>
                 (parseStr r2).map (fun p =>
                   (Char.ofNat (((a * 16 + b) * 16 + c) * 16 + d) :: p.1, p.2))
             | _, _, _, _ => none)
        | _ => none
      else none
  | c :: r => (parseStr r).map (fun p => (c :: p.1, p.2))

mutual

/-- Recursive-descent reader for the structured-data text emitted by the
serializer; the fuel argument bounds the nesting and member count. -/
def parseVal : Nat → List Char → Option (Value × List Char)
  | 0, _ => none
  | fuel + 1, s =>
      match s with
      | [] => none
      | c :: r =>
          if c = '"' then
            (parseStr r).map (fun p => (Value.vStr (String.mk p.1), p.2))
          else if c = '{' then
            match r with
            | '}' :: r2 => some (.vObj [], r2)
            | _ => (parseFields fuel r).map (fun p => (Value.vObj p.1, p.2))
          else if c = '[' then
            match r with
            | ']' :: r2 => some (.vArr [], r2)
            | _ => (parseItems fuel r).map (fun p => (Value.vArr p.1, p.2))
          else if c = 't' then
            match r with
            | 'r' :: 'u' :: 'e' :: r2 => some (.vBool true, r2)
            | _ => none
          else if c = 'f' then
            match r with
            | 'a' :: 'l' :: 's' :: 'e' :: r2 => some (.vBool false, r2)
            | _ => none
          else if c = 'n' then
            match r with
            | 'u' :: 'l' :: 'l' :: r2 => some (.vNull, r2)
            | _ => none
          else if c = '-' then
            match spanDigits r with
            | ([], _) => none
            | (ds, r2) => some (.vNum (-(Int.ofNat (digitsVal ds))), r2)
          else if isDigitC c then
            some (.vNum (Int.ofNat (digitsVal (spanDigits (c :: r)).1)),
              (spanDigits (c :: r)).2)
          else none

/-- Member list of a mapping (after the opening brace, at least one
member). -/
def parseFields : Nat → List Char → Option (List (String × Value) × List Char)
  | 0, _ => none
  | fuel + 1, s =>
      match s with
      | '"' :: r =>
          match parseStr r with
          | some (k, ':' :: r3) =>
              (match parseVal fuel r3 with
               | some (v, ',' :: r4) =>
                   (parseFields fuel r4).map (fun p => ((String.mk k, v) :: p.1, p.2))
               | some (v, '}' :: r4) => some ([(String.mk k, v)], r4)
               | _ => none)
          | _ => none
      | _ => none

/-- Element list of an array (after the opening bracket, at least one
element). -/
def parseItems : Nat → List Char → Option (List Value × List Char)
  | 0, _ => none
  | fuel + 1, s =>
      match parseVal fuel s with
      | some (v, ',' :: r2) => (parseItems fuel r2).map (fun p => (v :: p.1, p.2))
      | some (v, ']' :: r2) => some ([v], r2)
      | _ => none

end

/-- Reading back a whole line of structured-data text. -/
def parseJson (s : String) : Option Value :=
  match parseVal (s.toList.length + 1) s.toList with
  | some (v, []) => some v
  | _ => none

mutual

/-- The image of a value under serialization followed by reading back:
`undefined` mapping fields are dropped, `undefined` elsewhere becomes
`null`, and `Error` instances (which never survive normalization)
become empty mappings; everything else is unchanged. -/
def canon : Value → Value
  | .vStr s => .vStr s
  | .vNum n => .vNum n
  | .vBool b => .vBool b
  | .vNull => .vNull
  | .vUndefined => .vNull
  | .vError _ _ _ _ => .vObj []
  | .vArr items => .vArr (items.attach.map (fun x => canon x.1))
  | .vObj fields =>
      .vObj ((fields.filter (fun p => !p.2.isUndefined)).attach.map
        (fun x => canonField x.1))
termination_by v => sizeOf v
decreasing_by
  · have h := List.sizeOf_lt_of_mem x.2
    simp at h ⊢
    omega
  · have h := List.sizeOf_lt_of_mem (List.mem_of_mem_filter x.2)
    simp at h ⊢
    omega

/-- The canonical form of one surviving mapping member. -/
def canonField (p : String × Value) : String × Value :=
  (p.1, canon p.2)
termination_by sizeOf p
decreasing_by
  obtain ⟨a, b⟩ := p
  simp

end

/-- The canonical field list of a read-back mapping. -/
def canonFields (fs : List (String × Value)) : List (String × Value) :=
  (fs.filter (fun p => !p.2.isUndefined)).map canonField

theorem escapeString_nil : escapeString [] = [] := rfl

theorem escapeString_cons (c : Char) (cs : List Char) :
    escapeString (c :: cs) = escapeChar c ++ escapeString cs := by
  simp [escapeString]

theorem hexVal_hexDigitChar (n : Nat) (h : n < 16) : hexVal (hexDigitChar n) = some n := by
  have hall : ∀ m, m < 16 → hexVal (hexDigitChar m) = some m := by decide
  exact hall n h

theorem parseStr_other (c : Char) (r : List Char) (h1 : c ≠ '"') (h2 : c ≠ '\\') :
    parseStr (c :: r) = (parseStr r).map (fun p => (c :: p.1, p.2)) := by
  rw [parseStr.eq_def]
  split <;> simp_all

theorem parseStr_escape (s rest : List Char) :
    parseStr (escapeString s ++ '"' :: rest) = some (s, rest) := by
  induction s with
  | nil => simp [escapeString_nil, parseStr]
  | cons c cs ih =>
      rw [escapeString_cons, List.append_assoc]
      by_cases h1 : c = '"'
      · subst h1
        rw [show escapeChar '"' = ['\\', '"'] from rfl]
        simp only [List.cons_append, List.nil_append]
        rw [parseStr.eq_def]
        simp [ih]
      · by_cases h2 : c = '\\'
        · subst h2
          rw [show escapeChar '\\' = ['\\', '\\'] from rfl]
          simp only [List.cons_append, List.nil_append]
          rw [parseStr.eq_def]
          simp [ih]
        · by_cases h3 : c = '\n'
          · subst h3
            rw [show escapeChar '\n' = ['\\', 'n'] from rfl]
            simp only [List.cons_append, List.nil_append]
            rw [parseStr.eq_def]
            simp [ih]
          · by_cases h4 : c = '\r'
            · subst h4
              rw [show escapeChar '\r' = ['\\', 'r'] from rfl]
              simp only [List.cons_append, List.nil_append]
              rw [parseStr.eq_def]
              simp [ih]
            · by_cases h5 : c = '\t'
              · subst h5
                rw [show escapeChar '\t' = ['\\', 't'] from rfl]
                simp only [List.cons_append, List.nil_append]
                rw [parseStr.eq_def]
                simp [ih]
              · by_cases h6 : c.toNat < 32
                · rw [show escapeChar c
                      = ['\\', 'u', '0', '0', hexDigitChar (c.toNat / 16),
                         hexDigitChar (c.toNat % 16)] from by
                    simp [escapeChar, h1, h2, h3, h4, h5, h6]]
                  simp only [List.cons_append, List.nil_append]
                  rw [parseStr.eq_def]
                  have ha : hexVal (hexDigitChar (c.toNat / 16)) = some (c.toNat / 16) :=
                    hexVal_hexDigitChar _ (by omega)
                  have hb : hexVal (hexDigitChar (c.toNat % 16)) = some (c.toNat % 16) :=
                    hexVal_hexDigitChar _ (by omega)
                  have h0 : hexVal '0' = some 0 := rfl
                  simp only [h0, ha, hb]
                  have harith : ((0 * 16 + 0) * 16 + c.toNat / 16) * 16 + c.toNat % 16
                      = c.toNat := by omega
                  have harith2 : c.toNat / 16 * 16 + c.toNat % 16 = c.toNat := by omega
                  simp [harith, harith2, Char.ofNat_toNat, ih]
                · rw [show escapeChar c = [c] from by
                    simp [escapeChar, h1, h2, h3, h4, h5, h6]]
                  simp only [List.cons_append, List.nil_append]
                  rw [parseStr_other c _ h1 h2, ih]
                  rfl

theorem digitChar_lt10 : ∀ d, d < 10 → (digitChar d).toNat = 48 + d ∧
    isDigitC (digitChar d) = true := by decide

theorem natChars_digits (n : Nat) : ∀ c ∈ natChars n, isDigitC c = true := by
  induction n using Nat.strong_induction_on with
  | _ n ih =>
      rw [natChars]
      by_cases h : n < 10
      · rw [dif_pos h]
        intro c hc
        simp at hc
        subst hc
        exact (digitChar_lt10 n h).2
      · rw [dif_neg h]
        intro c hc
        rcases List.mem_append.mp hc with hc1 | hc2
        · exact ih (n / 10) (Nat.div_lt_self (by omega) (by omega)) c hc1
        · simp at hc2
          subst hc2
          exact (digitChar_lt10 (n % 10) (Nat.mod_lt _ (by omega))).2

theorem digitsVal_natChars (n : Nat) : digitsVal (natChars n) = n := by
  induction n using Nat.strong_induction_on with
  | _ n ih =>
      rw [natChars]
      by_cases h : n < 10
      · rw [dif_pos h]
        simp [digitsVal, (digitChar_lt10 n h).1]
      · rw [dif_neg h]
        rw [digitsVal, List.foldl_append]
        have hrec := ih (n / 10) (Nat.div_lt_self (by omega) (by omega))
        rw [digitsVal] at hrec
        rw [hrec]
        simp only [List.foldl_cons, List.foldl_nil]
        rw [(digitChar_lt10 (n % 10) (Nat.mod_lt _ (by omega))).1]
        omega

theorem natChars_head (n : Nat) :
    ∃ c cs, natChars n = c :: cs ∧ isDigitC c = true := by
  induction n using Nat.strong_induction_on with
  | _ n ih =>
      rw [natChars]
      by_cases h : n < 10
      · rw [dif_pos h]
        exact ⟨digitChar n, [], rfl, (digitChar_lt10 n h).2⟩
      · rw [dif_neg h]
        obtain ⟨c, cs, hcs, hc⟩ := ih (n / 10) (Nat.div_lt_self (by omega) (by omega))
        exact ⟨c, cs ++ [digitChar (n % 10)], by rw [hcs]; rfl, hc⟩

/-- Head-of-input digit test (the lookahead that ends a number). -/
def headIsDigit : List Char → Bool
  | [] => false
  | c :: _ => isDigitC c

theorem spanDigits_append (ds rest : List Char) (hds : ∀ c ∈ ds, isDigitC c = true)
    (hrest : headIsDigit rest = false) : spanDigits (ds ++ rest) = (ds, rest) := by
  induction ds with
  | nil =>
      simp only [List.nil_append]
      cases rest with
      | nil => rfl
      | cons c r =>
          rw [spanDigits]
          rw [show isDigitC c = false from hrest]
          simp
  | cons c ds ih =>
      have hc : isDigitC c = true := hds c (List.mem_cons_self _ _)
      rw [List.cons_append, spanDigits, hc]
      rw [ih (fun x hx => hds x (List.mem_cons_of_mem _ hx)) ]
      simp

theorem digit_not_special (c : Char) (h : isDigitC c = true) :
    c ≠ '"' ∧ c ≠ '{' ∧ c ≠ '[' ∧ c ≠ 't' ∧ c ≠ 'f' ∧ c ≠ 'n' ∧ c ≠ '-' := by
  rw [isDigitC] at h
  simp at h
  refine ⟨?_, ?_, ?_, ?_, ?_, ?_, ?_⟩ <;>
    (intro hq; subst hq; revert h; decide)

theorem string_mk_toList (s : String) : String.mk s.toList = s := by
  cases s
  rfl

theorem strVal_str (s : String) :
    strVal (.vStr s) = '"' :: (escapeString s.toList ++ ['"']) := by
  rw [strVal]

theorem strVal_num (n : Int) : strVal (.vNum n) = intChars n := by
  rw [strVal]

theorem strVal_arr (items : List Value) :
    strVal (.vArr items) = '[' :: (joinComma (items.map strVal) ++ [']']) := by
  rw [strVal]
  rw [List.attach_map_val items strVal]

theorem strVal_obj (fields : List (String × Value)) :
    strVal (.vObj fields)
      = '{' :: (joinComma ((fields.filter (fun p => !p.2.isUndefined)).map strMember)
          ++ ['}']) := by
  rw [strVal]
  rw [List.attach_map_val _ strMember]

theorem canon_arr (items : List Value) :
    canon (.vArr items) = .vArr (items.map canon) := by
  rw [canon]
  rw [List.attach_map_val items canon]

theorem canon_obj (fields : List (String × Value)) :
    canon (.vObj fields) = .vObj (canonFields fields) := by
  rw [canon, canonFields]
  rw [List.attach_map_val _ canonField]

theorem joinComma_cons (x : List Char) (xs : List (List Char)) :
    joinComma (x :: xs) = x ++ (if xs.isEmpty then [] else ',' :: joinComma xs) := by
  cases xs <;> simp [joinComma]

theorem digit_not_delim (c : Char) (h : isDigitC c = true) :
    c ≠ ']' ∧ c ≠ '}' ∧ c ≠ ',' := by
  rw [isDigitC] at h
  simp at h
  refine ⟨?_, ?_, ?_⟩ <;> (intro hq; subst hq; revert h; decide)

theorem strVal_cons (v : Value) :
    ∃ c cs, strVal v = c :: cs ∧ c ≠ ']' ∧ c ≠ '}' ∧ c ≠ ',' := by
  cases v with
  | vStr s => exact ⟨'"', _, strVal_str s, by decide, by decide, by decide⟩
  | vNum n =>
      rw [strVal_num, intChars]
      by_cases h : n < 0
      · rw [if_pos h]
        exact ⟨'-', _, rfl, by decide, by decide, by decide⟩
      · rw [if_neg h]
        obtain ⟨c, cs, hcs, hc⟩ := natChars_head n.natAbs
        obtain ⟨d1, d2, d3⟩ := digit_not_delim c hc
        exact ⟨c, cs, hcs, d1, d2, d3⟩
  | vBool b =>
      cases b
      · exact ⟨'f', _, by rw [strVal], by decide, by decide, by decide⟩
      · exact ⟨'t', _, by rw [strVal], by decide, by decide, by decide⟩
  | vNull => exact ⟨'n', _, by rw [strVal], by decide, by decide, by decide⟩
  | vUndefined => exact ⟨'n', _, by rw [strVal], by decide, by decide, by decide⟩
  | vError name msg stack cause =>
      exact ⟨'{', _, by rw [strVal], by decide, by decide, by decide⟩
  | vArr items => exact ⟨'[', _, strVal_arr items, by decide, by decide, by decide⟩
  | vObj fields => exact ⟨'{', _, strVal_obj fields, by decide, by decide, by decide⟩

theorem strVal_length_pos (v : Value) : 1 ≤ (strVal v).length := by
  obtain ⟨c, cs, hcs, _⟩ := strVal_cons v
  rw [hcs]
  simp

theorem sizeOf_filter_le (p : String × Value → Bool) (l : List (String × Value)) :
    sizeOf (l.filter p) ≤ sizeOf l := by
  induction l with
  | nil => simp
  | cons x l ih =>
      rw [List.filter_cons]
      by_cases h : p x
      · simp only [h, if_true, List.cons.sizeOf_spec]
        omega
      · simp only [h, Bool.false_eq_true, if_false, List.cons.sizeOf_spec]
        omega

theorem parseVal_digit (f : Nat) (c : Char) (r : List Char) (hc : isDigitC c = true) :
    parseVal (f + 1) (c :: r)
      = some (.vNum (Int.ofNat (digitsVal (spanDigits (c :: r)).1)),
          (spanDigits (c :: r)).2) := by
  obtain ⟨h1, h2, h3, h4, h5, h6, h7⟩ := digit_not_special c hc
  rw [parseVal.eq_def]
  split <;> simp_all

theorem parseVal_quote (f : Nat) (r : List Char) :
    parseVal (f + 1) ('"' :: r)
      = (parseStr r).map (fun p => (Value.vStr (String.mk p.1), p.2)) := by
  rw [parseVal.eq_def]
  split <;> simp_all

theorem parseVal_true (f : Nat) (rest : List Char) :
    parseVal (f + 1) ('t' :: 'r' :: 'u' :: 'e' :: rest) = some (.vBool true, rest) := by
  rw [parseVal.eq_def]
  simp

theorem parseVal_false (f : Nat) (rest : List Char) :
    parseVal (f + 1) ('f' :: 'a' :: 'l' :: 's' :: 'e' :: rest)
      = some (.vBool false, rest) := by
  rw [parseVal.eq_def]
  simp

theorem parseVal_null (f : Nat) (rest : List Char) :
    parseVal (f + 1) ('n' :: 'u' :: 'l' :: 'l' :: rest) = some (.vNull, rest) := by
  rw [parseVal.eq_def]
  simp

theorem parseVal_empty_obj (f : Nat) (rest : List Char) :
    parseVal (f + 1) ('{' :: '}' :: rest) = some (.vObj [], rest) := by
  rw [parseVal.eq_def]
  simp

theorem parseVal_empty_arr (f : Nat) (rest : List Char) :
    parseVal (f + 1) ('[' :: ']' :: rest) = some (.vArr [], rest) := by
  rw [parseVal.eq_def]
  simp

theorem parseVal_lbrace_cons (f : Nat) (c : Char) (tail : List Char) (hc : c ≠ '}') :
    parseVal (f + 1) ('{' :: c :: tail)
      = (parseFields f (c :: tail)).map (fun p => (Value.vObj p.1, p.2)) := by
  rw [parseVal.eq_def]
  split <;> simp_all

theorem parseVal_lbracket_cons (f : Nat) (c : Char) (tail : List Char) (hc : c ≠ ']') :
    parseVal (f + 1) ('[' :: c :: tail)
      = (parseItems f (c :: tail)).map (fun p => (Value.vArr p.1, p.2)) := by
  rw [parseVal.eq_def]
  split <;> simp_all

theorem parseVal_dash (f : Nat) (ds rest : List Char) (hne : ds ≠ [])
    (hspan : spanDigits (ds ++ rest) = (ds, rest)) :
    parseVal (f + 1) ('-' :: (ds ++ rest))
      = some (.vNum (-(Int.ofNat (digitsVal ds))), rest) := by
  rw [parseVal.eq_def]
  cases ds with
  | nil => exact absurd rfl hne
  | cons d ds' =>
      simp only [List.cons_append] at hspan
      simp [hspan]

theorem parseFields_step_comma (f : Nat) (r k r3 : List Char) (v : Value)
    (r4 : List Char) (hps : parseStr r = some (k, ':' :: r3))
    (hpv : parseVal f r3 = some (v, ',' :: r4)) :
    parseFields (f + 1) ('"' :: r)
      = (parseFields f r4).map (fun p => ((String.mk k, v) :: p.1, p.2)) := by
  rw [parseFields.eq_def]
  simp [hps, hpv]

theorem parseFields_step_rbrace (f : Nat) (r k r3 : List Char) (v : Value)
    (r4 : List Char) (hps : parseStr r = some (k, ':' :: r3))
    (hpv : parseVal f r3 = some (v, '}' :: r4)) :
    parseFields (f + 1) ('"' :: r) = some ([(String.mk k, v)], r4) := by
  rw [parseFields.eq_def]
  simp [hps, hpv]

theorem parseItems_step_comma (f : Nat) (s : List Char) (v : Value) (r2 : List Char)
    (hpv : parseVal f s = some (v, ',' :: r2)) :
    parseItems (f + 1) s = (parseItems f r2).map (fun p => (v :: p.1, p.2)) := by
  rw [parseItems.eq_def]
  simp [hpv]

theorem parseItems_step_rbracket (f : Nat) (s : List Char) (v : Value) (r2 : List Char)
    (hpv : parseVal f s = some (v, ']' :: r2)) :
    parseItems (f + 1) s = some ([v], r2) := by
  rw [parseItems.eq_def]
  simp [hpv]


theorem joinComma_single (x : List Char) : joinComma [x] = x := by
  rw [joinComma]

theorem joinComma_cons_cons (x y : List Char) (ys : List (List Char)) :
    joinComma (x :: y :: ys) = x ++ ',' :: joinComma (y :: ys) := by
  rw [joinComma]

theorem joinComma_head (x : List Char) (xs : List (List Char)) :
    ∃ t, joinComma (x :: xs) = x ++ t := by
  cases xs with
  | nil => exact ⟨[], by rw [joinComma_single]; simp⟩
  | cons y ys => exact ⟨',' :: joinComma (y :: ys), joinComma_cons_cons x y ys⟩

theorem headIsDigit_rbrace (r : List Char) : headIsDigit ('}' :: r) = false := rfl

theorem headIsDigit_rbracket (r : List Char) : headIsDigit (']' :: r) = false := rfl

theorem headIsDigit_comma (r : List Char) : headIsDigit (',' :: r) = false := rfl

mutual

theorem parseVal_strVal (v : Value) (fuel : Nat) (rest : List Char)
    (hfuel : (strVal v).length < fuel) (hrest : headIsDigit rest = false) :
    parseVal fuel (strVal v ++ rest) = some (canon v, rest) := by
  cases fuel with
  | zero => omega
  | succ f =>
      cases v with
      | vStr s =>
          rw [strVal_str, canon]
          simp only [List.cons_append, List.append_assoc, List.singleton_append]
          rw [parseVal_quote, parseStr_escape]
          simp [string_mk_toList]
      | vNum n =>
          rw [strVal_num]
          rw [canon]
          rw [intChars]
          by_cases hneg : n < 0
          · rw [if_pos hneg]
            have hspan : spanDigits (natChars n.natAbs ++ rest) = (natChars n.natAbs, rest) :=
              spanDigits_append _ _ (natChars_digits n.natAbs) hrest
            have hnn : natChars n.natAbs ≠ [] := by
              obtain ⟨c, cs, hcs, _⟩ := natChars_head n.natAbs
              rw [hcs]
              simp
            rw [List.cons_append, parseVal_dash f _ rest hnn hspan, digitsVal_natChars]
            have hval : -(Int.ofNat n.natAbs) = n := by
              simp only [Int.ofNat_eq_coe]
              omega
            rw [hval]
          · rw [if_neg hneg]
            obtain ⟨c, cs, hcs, hc⟩ := natChars_head n.natAbs
            rw [hcs, List.cons_append, parseVal_digit f c _ hc]
            rw [show c :: (cs ++ rest) = (c :: cs) ++ rest from rfl, ← hcs]
            rw [spanDigits_append _ _ (natChars_digits n.natAbs) hrest]
            simp only
            rw [digitsVal_natChars]
            have hval : (Int.ofNat n.natAbs) = n := by
              simp only [Int.ofNat_eq_coe]
              omega
            rw [hval]
      | vBool b =>
          cases b
          · rw [show strVal (.vBool false) = ['f', 'a', 'l', 's', 'e'] from by rw [strVal]]
            rw [canon]
            simp only [List.cons_append, List.nil_append]
            exact parseVal_false f rest
          · rw [show strVal (.vBool true) = ['t', 'r', 'u', 'e'] from by rw [strVal]]
            rw [canon]
            simp only [List.cons_append, List.nil_append]
            exact parseVal_true f rest
      | vNull =>
          rw [show strVal .vNull = ['n', 'u', 'l', 'l'] from by rw [strVal]]
          rw [canon]
          simp only [List.cons_append, List.nil_append]
          exact parseVal_null f rest
      | vUndefined =>
          rw [show strVal .vUndefined = ['n', 'u', 'l', 'l'] from by rw [strVal]]
          rw [canon]
          simp only [List.cons_append, List.nil_append]
          exact parseVal_null f rest
      | vError name msg stack cause =>
          rw [show strVal (.vError name msg stack cause) = ['{', '}'] from by rw [strVal]]
          rw [canon]
          simp only [List.cons_append, List.nil_append]
          exact parseVal_empty_obj f rest
      | vArr items =>
          rw [strVal_arr] at hfuel ⊢
          rw [canon_arr]
          cases items with
          | nil =>
              simp only [List.map_nil]
              rw [show joinComma ([] : List (List Char)) = [] from rfl]
              simp only [List.nil_append, List.cons_append]
              exact parseVal_empty_arr f rest
          | cons w ws =>
              rw [List.map_cons] at hfuel ⊢
              obtain ⟨c, cs, hcs, hc1, hc2, hc3⟩ := strVal_cons w
              obtain ⟨t, ht⟩ := joinComma_head (strVal w) (ws.map strVal)
              have hinput : ('[' :: (joinComma (strVal w :: ws.map strVal) ++ [']'])) ++ rest
                  = '[' :: (joinComma (strVal w :: ws.map strVal) ++ ']' :: rest) := by
                simp
              have hshape : joinComma (strVal w :: ws.map strVal) ++ ']' :: rest
                  = c :: (cs ++ (t ++ ']' :: rest)) := by
                rw [ht, hcs]
                simp [List.append_assoc]
              have hbound : (joinComma (strVal w :: ws.map strVal)).length + 1 < f := by
                simp only [List.length_cons, List.length_append, List.length_nil] at hfuel
                omega
              rw [hinput, hshape, parseVal_lbracket_cons f c _ hc1, ← hshape]
              have hrec := parseItems_strVal (w :: ws) f rest (by simp)
                (by rw [List.map_cons]; exact hbound)
              rw [List.map_cons] at hrec
              rw [hrec]
              simp
      | vObj fields =>
          rw [strVal_obj] at hfuel ⊢
          rw [canon_obj, canonFields]
          cases hFc : fields.filter (fun p => !p.2.isUndefined) with
          | nil =>
              simp only [List.map_nil]
              rw [show joinComma ([] : List (List Char)) = [] from rfl]
              simp only [List.nil_append, List.cons_append]
              exact parseVal_empty_obj f rest
          | cons p fs' =>
              rw [hFc] at hfuel
              rw [List.map_cons] at hfuel ⊢
              obtain ⟨tl, htl⟩ : ∃ tl, strMember p = '"' :: tl := by
                rw [strMember]
                exact ⟨_, rfl⟩
              obtain ⟨t, ht⟩ := joinComma_head (strMember p) (fs'.map strMember)
              have hinput : ('{' :: (joinComma (strMember p :: fs'.map strMember) ++ ['}'])) ++ rest
                  = '{' :: (joinComma (strMember p :: fs'.map strMember) ++ '}' :: rest) := by
                simp
              have hshape : joinComma (strMember p :: fs'.map strMember) ++ '}' :: rest
                  = '"' :: (tl ++ (t ++ '}' :: rest)) := by
                rw [ht, htl]
                simp [List.append_assoc]
              have hbound : (joinComma (strMember p :: fs'.map strMember)).length + 1 < f := by
                simp only [List.length_cons, List.length_append, List.length_nil] at hfuel
                omega
              rw [hinput, hshape, parseVal_lbrace_cons f '"' _ (by decide), ← hshape]
              have hrec := parseFields_strVal (p :: fs') f rest (by simp)
                (by rw [List.map_cons]; exact hbound)
              rw [List.map_cons] at hrec
              rw [hrec]
              simp
termination_by sizeOf v
decreasing_by
  all_goals simp_wf
  all_goals subst_vars
  all_goals first
  | (simp <;> omega)
  | (have hle : sizeOf (fields.filter (fun p => !p.2.isUndefined)) ≤ sizeOf fields :=
        sizeOf_filter_le _ fields
     rw [hFc] at hle
     simp at hle ⊢
     omega)

theorem parseFields_strVal (fs : List (String × Value)) (fuel : Nat) (rest : List Char)
    (hne : fs ≠ []) (hfuel : (joinComma (fs.map strMember)).length + 1 < fuel) :
    parseFields fuel (joinComma (fs.map strMember) ++ '}' :: rest)
      = some (fs.map canonField, rest) := by
  cases fuel with
  | zero => omega
  | succ f =>
      cases fs with
      | nil => exact absurd rfl hne
      | cons p fs' =>
          have hm : strMember p
              = '"' :: (escapeString p.1.toList ++ ['"', ':'] ++ strVal p.2) := by
            rw [strMember]
          have hmlen : (strMember p).length
              = (escapeString p.1.toList).length + (strVal p.2).length + 3 := by
            rw [hm]
            simp only [List.length_cons, List.length_append, List.length_nil]
            omega
          rw [List.map_cons] at hfuel ⊢
          cases fs' with
          | nil =>
              rw [List.map_nil, joinComma_single] at hfuel ⊢
              rw [hmlen] at hfuel
              have hbound : (strVal p.2).length < f := by omega
              rw [hm]
              simp only [List.cons_append, List.append_assoc, List.nil_append]
              have hpv : parseVal f (strVal p.2 ++ '}' :: rest)
                  = some (canon p.2, '}' :: rest) :=
                parseVal_strVal p.2 f ('}' :: rest) hbound (headIsDigit_rbrace rest)
              rw [parseFields_step_rbrace f _ _ _ _ _
                (parseStr_escape p.1.toList (':' :: (strVal p.2 ++ '}' :: rest))) hpv]
              rw [string_mk_toList]
              simp [canonField]
          | cons q fs'' =>
              rw [List.map_cons, joinComma_cons_cons] at hfuel ⊢
              rw [List.length_append, hmlen] at hfuel
              simp only [List.length_cons] at hfuel
              have hbound : (strVal p.2).length < f := by omega
              have hbound2 : (joinComma (strMember q :: fs''.map strMember)).length + 1 < f := by
                omega
              rw [hm]
              simp only [List.cons_append, List.append_assoc, List.nil_append]
              have hpv : parseVal f (strVal p.2
                    ++ ',' :: (joinComma (strMember q :: fs''.map strMember) ++ '}' :: rest))
                  = some (canon p.2,
                      ',' :: (joinComma (strMember q :: fs''.map strMember) ++ '}' :: rest)) :=
                parseVal_strVal p.2 f _ hbound (headIsDigit_comma _)
              rw [parseFields_step_comma f _ _ _ _ _
                (parseStr_escape p.1.toList
                  (':' :: (strVal p.2
                    ++ ',' :: (joinComma (strMember q :: fs''.map strMember) ++ '}' :: rest)))) hpv]
              have hrec := parseFields_strVal (q :: fs'') f rest (by simp)
                (by rw [List.map_cons]; exact hbound2)
              rw [List.map_cons] at hrec
              rw [hrec]
              rw [string_mk_toList]
              simp [canonField]
termination_by sizeOf fs
decreasing_by
  all_goals simp_wf
  all_goals subst_vars
  all_goals first
  | (simp <;> omega)
  | (obtain ⟨a, b⟩ := p; simp; omega)

theorem parseItems_strVal (items : List Value) (fuel : Nat) (rest : List Char)
    (hne : items ≠ []) (hfuel : (joinComma (items.map strVal)).length + 1 < fuel) :
    parseItems fuel (joinComma (items.map strVal) ++ ']' :: rest)
      = some (items.map canon, rest) := by
  cases fuel with
  | zero => omega
  | succ f =>
      cases items with
      | nil => exact absurd rfl hne
      | cons w ws =>
          rw [List.map_cons] at hfuel ⊢
          cases ws with
          | nil =>
              rw [List.map_nil, joinComma_single] at hfuel ⊢
              have hbound : (strVal w).length < f := by omega
              have hpv : parseVal f (strVal w ++ ']' :: rest)
                  = some (canon w, ']' :: rest) :=
                parseVal_strVal w f (']' :: rest) hbound (headIsDigit_rbracket rest)
              rw [parseItems_step_rbracket f _ _ _ hpv]
              simp
          | cons u us =>
              rw [List.map_cons, joinComma_cons_cons] at hfuel ⊢
              rw [List.length_append] at hfuel
              simp only [List.length_cons] at hfuel
              have hsw := strVal_length_pos w
              have hbound : (strVal w).length < f := by omega
              have hbound2 : (joinComma (strVal u :: us.map strVal)).length + 1 < f := by
                omega
              have hin : (strVal w ++ ',' :: joinComma (strVal u :: us.map strVal)) ++ ']' :: rest
                  = strVal w ++ ',' :: (joinComma (strVal u :: us.map strVal) ++ ']' :: rest) := by
                simp
              rw [hin]
              have hpv : parseVal f (strVal w
                    ++ ',' :: (joinComma (strVal u :: us.map strVal) ++ ']' :: rest))
                  = some (canon w,
                      ',' :: (joinComma (strVal u :: us.map strVal) ++ ']' :: rest)) :=
                parseVal_strVal w f _ hbound (headIsDigit_comma _)
              rw [parseItems_step_comma f _ _ _ hpv]
              have hrec := parseItems_strVal (u :: us) f rest (by simp)
                (by rw [List.map_cons]; exact hbound2)
              rw [List.map_cons] at hrec
              rw [hrec]
              simp
termination_by sizeOf items
decreasing_by
  all_goals simp_wf
  all_goals subst_vars
  all_goals (simp <;> omega)

end

theorem newline_not_escapeChar (c : Char) : '\n' ∉ escapeChar c := by
  rw [escapeChar]
  by_cases h1 : c = '"'
  · simp [h1]
  · by_cases h2 : c = '\\'
    · simp [h1, h2]
    · by_cases h3 : c = '\n'
      · simp [h1, h2, h3]
      · by_cases h4 : c = '\r'
        · simp [h1, h2, h3, h4]
        · by_cases h5 : c = '\t'
          · simp [h1, h2, h3, h4, h5]
          · by_cases h6 : c.toNat < 32
            · have hhex : ∀ m, m < 16 → hexDigitChar m ≠ '\n' := by decide
              simp only [h1, h2, h3, h4, h5, h6, if_false, if_true]
              intro hmem
              simp only [List.mem_cons, List.not_mem_nil, or_false] at hmem
              rcases hmem with h | h | h | h | h | h <;>
                first
                | exact absurd h.symm (by decide)
                | exact absurd h.symm (hhex _ (by omega))
            · simp only [h1, h2, h3, h4, h5, h6, if_false]
              intro hmem
              simp only [List.mem_cons, List.not_mem_nil, or_false] at hmem
              exact h3 hmem.symm

theorem newline_not_escapeString (s : List Char) : '\n' ∉ escapeString s := by
  rw [escapeString]
  intro hmem
  obtain ⟨l, hl, hcl⟩ := List.mem_flatten.mp hmem
  obtain ⟨c, _, hc⟩ := List.mem_map.mp hl
  rw [← hc] at hcl
  exact newline_not_escapeChar c hcl

theorem mem_joinComma (c : Char) (ls : List (List Char)) (h : c ∈ joinComma ls) :
    c = ',' ∨ ∃ l ∈ ls, c ∈ l := by
  induction ls with
  | nil => simp [joinComma] at h
  | cons x xs ih =>
      cases xs with
      | nil =>
          rw [joinComma_single] at h
          exact Or.inr ⟨x, by simp, h⟩
      | cons y ys =>
          rw [joinComma_cons_cons] at h
          rcases List.mem_append.mp h with h1 | h2
          · exact Or.inr ⟨x, by simp, h1⟩
          · rcases List.mem_cons.mp h2 with hc | h3
            · exact Or.inl hc
            · rcases ih h3 with h4 | ⟨l, hl, hcl⟩
              · exact Or.inl h4
              · exact Or.inr ⟨l, List.mem_cons_of_mem x hl, hcl⟩

theorem isDigitC_ne_newline (c : Char) (h : isDigitC c = true) : c ≠ '\n' := by
  rw [isDigitC] at h
  simp at h
  intro hq
  subst hq
  revert h
  decide

theorem newline_not_intChars (n : Int) : '\n' ∉ intChars n := by
  rw [intChars]
  by_cases h : n < 0
  · rw [if_pos h]
    intro hmem
    rcases List.mem_cons.mp hmem with hc | hc
    · exact absurd hc (by decide)
    · exact isDigitC_ne_newline _ (natChars_digits n.natAbs _ hc) rfl
  · rw [if_neg h]
    intro hmem
    exact isDigitC_ne_newline _ (natChars_digits n.natAbs _ hmem) rfl

theorem newline_not_strVal_aux :
    ∀ (n : Nat) (v : Value), sizeOf v ≤ n → '\n' ∉ strVal v := by
  intro n
  induction n using Nat.strong_induction_on with
  | _ n ih =>
      intro v hv hmem
      cases v with
      | vStr s =>
          rw [strVal_str] at hmem
          rcases List.mem_cons.mp hmem with hc | hc
          · exact absurd hc (by decide)
          · rcases List.mem_append.mp hc with hc2 | hc2
            · exact newline_not_escapeString s.toList hc2
            · simp at hc2
      | vNum m =>
          rw [strVal_num] at hmem
          exact newline_not_intChars m hmem
      | vBool b =>
          cases b <;> revert hmem <;>
            first
            | (rw [show strVal (.vBool false) = ['f', 'a', 'l', 's', 'e'] from by rw [strVal]]
               decide)
            | (rw [show strVal (.vBool true) = ['t', 'r', 'u', 'e'] from by rw [strVal]]
               decide)
      | vNull =>
          revert hmem
          rw [show strVal .vNull = ['n', 'u', 'l', 'l'] from by rw [strVal]]
          decide
      | vUndefined =>
          revert hmem
          rw [show strVal .vUndefined = ['n', 'u', 'l', 'l'] from by rw [strVal]]
          decide
      | vError name msg stack cause =>
          revert hmem
          rw [show strVal (.vError name msg stack cause) = ['{', '}'] from by rw [strVal]]
          decide
      | vArr items =>
          rw [strVal_arr] at hmem
          rcases List.mem_cons.mp hmem with hc | hc
          · exact absurd hc (by decide)
          · rcases List.mem_append.mp hc with hc2 | hc2
            · rcases mem_joinComma _ _ hc2 with hcomma | ⟨l, hl, hcl⟩
              · exact absurd hcomma (by decide)
              · obtain ⟨w, hw, hwl⟩ := List.mem_map.mp hl
                have hsz : sizeOf w < sizeOf (Value.vArr items) := by
                  have := List.sizeOf_lt_of_mem hw
                  simp
                  omega
                have hszn : sizeOf w < n := by omega
                exact ih (sizeOf w) hszn w (le_refl _) (by rw [hwl]; exact hcl)
            · simp at hc2
      | vObj fields =>
          rw [strVal_obj] at hmem
          rcases List.mem_cons.mp hmem with hc | hc
          · exact absurd hc (by decide)
          · rcases List.mem_append.mp hc with hc2 | hc2
            · rcases mem_joinComma _ _ hc2 with hcomma | ⟨l, hl, hcl⟩
              · exact absurd hcomma (by decide)
              · obtain ⟨p, hp, hpl⟩ := List.mem_map.mp hl
                rw [← hpl, strMember] at hcl
                rcases List.mem_cons.mp hcl with hc3 | hc3
                · exact absurd hc3 (by decide)
                · rcases List.mem_append.mp hc3 with hc4 | hc4
                  · rcases List.mem_append.mp hc4 with hc5 | hc5
                    · exact newline_not_escapeString p.1.toList hc5
                    · revert hc5
                      decide
                  · have hszp : sizeOf p.2 < sizeOf (Value.vObj fields) := by
                      have h1 := List.sizeOf_lt_of_mem (List.mem_of_mem_filter hp)
                      have h2 : sizeOf p.2 < sizeOf p := by
                        obtain ⟨a, b⟩ := p
                        simp
                      simp at h1 ⊢
                      omega
                    have hszn : sizeOf p.2 < n := by omega
                    exact ih (sizeOf p.2) hszn p.2 (le_refl _) hc4
            · simp at hc2

theorem newline_not_strVal (v : Value) : '\n' ∉ strVal v :=
  newline_not_strVal_aux (sizeOf v) v (le_refl _)

theorem lookup_cons (p : String × Value) (fs : List (String × Value)) (k : String) :
    lookup (p :: fs) k = if p.1 == k then some p.2 else lookup fs k := by
  rw [lookup, List.find?_cons]
  by_cases h : p.1 == k <;> simp [h, lookup]

theorem canonField_eq (p : String × Value) : canonField p = (p.1, canon p.2) := by
  rw [canonField]

theorem lookup_canonFields (fs : List (String × Value)) (k : String) (v : Value)
    (h : lookup fs k = some v) (hv : v.isUndefined = false) :
    lookup (canonFields fs) k = some (canon v) := by
  induction fs with
  | nil => simp [lookup] at h
  | cons p fs ih =>
      rw [lookup_cons] at h
      by_cases hpk : p.1 == k
      · rw [if_pos hpk] at h
        have hv2 : p.2 = v := by simpa using h
        have hkeep : (!p.2.isUndefined) = true := by
          rw [hv2, hv]
          rfl
        rw [canonFields, List.filter_cons, if_pos hkeep, List.map_cons, canonField_eq,
          lookup_cons, if_pos hpk, hv2]
      · rw [if_neg hpk] at h
        cases hu : p.2.isUndefined with
        | true =>
            rw [canonFields, List.filter_cons]
            rw [show (!p.2.isUndefined) = false from by rw [hu]; rfl]
            simp only [Bool.false_eq_true, if_false]
            rw [← canonFields]
            exact ih h
        | false =>
            rw [canonFields, List.filter_cons]
            rw [show (!p.2.isUndefined) = true from by rw [hu]; rfl]
            simp only [if_true]
            rw [List.map_cons, canonField_eq, lookup_cons, if_neg hpk, ← canonFields]
            exact ih h

/-- C6: round-trip of the json rendering. In json mode the formatter
output is the structured-data serialization of the whole entry; reading
that text back succeeds and yields exactly the entry's fields in
canonical form (fields present in the record are preserved, an absent
request id — the `undefined` property — is omitted); the rendered line
contains no newline, and special characters in every string field,
including the message, survive the round trip exactly (the parsed field
values equal the originals). Cyclic meta is not representable in this
model: every representable record serializes totally, which reflects the
defensive, non-throwing contract of the serializer. -/
theorem json_roundtrip (o : LoggerOptions) (e : LogEntry) (hfmt : o.format = Fmt.json) :
    StructuredLogger.format o e = jsonStringify (Value.vObj (entryFields e))
    ∧ parseJson (StructuredLogger.format o e)
        = some (canon (Value.vObj (entryFields e)))
    ∧ '\n' ∉ (StructuredLogger.format o e).toList
    ∧ (∀ k v, lookup (entryFields e) k = some v → v.isUndefined = false →
        lookup (canonFields (entryFields e)) k = some (canon v)) := by
  have h1 : StructuredLogger.format o e = jsonStringify (Value.vObj (entryFields e)) := by
    rw [StructuredLogger.format, hfmt]
  refine ⟨h1, ?_, ?_, ?_⟩
  · rw [h1]
    have hp := parseVal_strVal (Value.vObj (entryFields e))
      ((strVal (Value.vObj (entryFields e))).length + 1) [] (by omega) rfl
    rw [List.append_nil] at hp
    rw [parseJson]
    rw [show (jsonStringify (Value.vObj (entryFields e))).toList
        = strVal (Value.vObj (entryFields e)) from rfl]
    rw [hp]
  · rw [h1]
    rw [show (jsonStringify (Value.vObj (entryFields e))).toList
        = strVal (Value.vObj (entryFields e)) from rfl]
    exact newline_not_strVal _
  · intro k v hk hv
    exact lookup_canonFields _ k v hk hv

/-- C6 (witness): a concrete record rendered in json mode parses back to
exactly its canonical field mapping. -/
theorem json_roundtrip_witness :
    parseJson (StructuredLogger.format ⟨"app", .info, .json, true, [], ""⟩
        ⟨"2024-01-01T00:00:00.000Z", .info, "hi", "app", "dev",
          [("a", Value.vNum 1)], some (Value.vStr "r")⟩)
      = some (canon (Value.vObj (entryFields
          ⟨"2024-01-01T00:00:00.000Z", .info, "hi", "app", "dev",
            [("a", Value.vNum 1)], some (Value.vStr "r")⟩))) :=
  (json_roundtrip ⟨"app", .info, .json, true, [], ""⟩
    ⟨"2024-01-01T00:00:00.000Z", .info, "hi", "app", "dev",
      [("a", Value.vNum 1)], some (Value.vStr "r")⟩ rfl).2.1
